import Mathlib

/-!
Verification of the trim & crop editing engine of the clip-maker frontend.

The development shallowly embeds the relevant source functions:
- `TrimControls.tsx`: `formatTimeInput`, `parseTimeInput` and the two
  manual time-entry `onChange` guards;
- `TimelineBar.tsx`: `formatTime`, the drag `handleMouseMove` clamps, the
  `handleMouseDown`/`handleMouseUp` drag state transitions, and
  `handleTrackClick`;
- `VideoTrimmer.tsx`: `calculateCropForRatio`, the crop-drag translation,
  `handleSeek`, `handleTogglePlay`/`handlePlay` and `handleTimeUpdate`;
- `useYouTubePlayer.ts`: `seekTo`, `play` and the polling loop body inside
  `onStateChange`.

Times, pixel coordinates and ratios are JavaScript doubles in the source;
they are embedded as `ℚ`.  String handling works on `List Char` with thin
`String` wrappers.  JavaScript numbers that can be `NaN` or infinite
(results of `parseFloat`) are embedded as the three-cased `JSNum`.
-/

namespace ClipFrontend

/-! ## JavaScript number results of `parseFloat` -/

/-- Result of a JavaScript `parseFloat`/arithmetic chain: `NaN`, a signed
infinity, or a finite value (embedded as `ℚ`). -/
inductive JSNum where
  | nan : JSNum
  | inf (neg : Bool) : JSNum
  | val (q : ℚ) : JSNum
deriving DecidableEq

/-- Multiplication by a positive finite constant (the `* 3600` / `* 60`
factors in `parseTimeInput`): preserves `NaN` and the sign of infinities. -/
def JSNum.scale (c : ℚ) : JSNum → JSNum
  | .nan => .nan
  | .inf s => .inf s
  | .val q => .val (c * q)

/-- JavaScript addition on possibly non-finite numbers. -/
def JSNum.add : JSNum → JSNum → JSNum
  | .nan, _ => .nan
  | _, .nan => .nan
  | .inf a, .inf b => if a = b then .inf a else .nan
  | .inf a, .val _ => .inf a
  | .val _, .inf b => .inf b
  | .val a, .val b => .val (a + b)

/-! ## `parseFloat` (ECMAScript decimal literals)

`parseFloat` trims leading whitespace, then reads the longest prefix that is
a signed decimal literal (`digits [. digits] [e/E [sign] digits]`, or
`.digits ...`, or the literal `Infinity`), returning `NaN` when there is
none.  Trailing garbage is ignored.  The embedding covers the four common
whitespace characters. -/

/-- Leading characters skipped by `parseFloat`. -/
def jsWhitespace (c : Char) : Bool :=
  c = ' ' || c = '\t' || c = '\n' || c = '\r'

/-- The decimal-digit test (`0`–`9`) of the numeric grammar. -/
def isDig (c : Char) : Bool :=
  decide (48 ≤ c.toNat) && decide (c.toNat ≤ 57)

/-- Optional sign; returns (isNegative, rest). -/
def parseSign (cs : List Char) : Bool × List Char :=
  match cs with
  | c :: rest =>
    if c = '-' then (true, rest)
    else if c = '+' then (false, rest)
    else (false, cs)
  | [] => (false, cs)

/-- Does the input begin with the literal `Infinity`? -/
def infinityPrefix (cs : List Char) : Bool :=
  cs.take 8 = ['I', 'n', 'f', 'i', 'n', 'i', 't', 'y']

/-- Value of a digit character. -/
def digitVal (c : Char) : ℕ := c.toNat - 48

/-- Left-to-right value of a digit string, with accumulator. -/
def digitsValAux (acc : ℕ) : List Char → ℕ
  | [] => acc
  | c :: cs => digitsValAux (10 * acc + digitVal c) cs

/-- Left-to-right value of a digit string: `digitsVal ['1','2','3'] = 123`. -/
def digitsVal (cs : List Char) : ℕ := digitsValAux 0 cs

/-- Exponent suffix value: `e`/`E`, optional sign, digits.  An exponent with
no digits is not part of the longest valid prefix and contributes `0`. -/
def expValue (cs : List Char) : ℤ :=
  match cs with
  | c :: rest =>
    if c = 'e' || c = 'E' then
      let s := parseSign rest
      let ds := s.2.takeWhile isDig
      if ds = [] then 0
      else if s.1 then -(digitsVal ds : ℤ) else (digitsVal ds : ℤ)
    else 0
  | [] => 0

/-- Powers of ten on `ℚ`, kept definitionally simple. -/
def pow10 : ℕ → ℚ
  | 0 => 1
  | n + 1 => 10 * pow10 n

/-- `Math.min` on finite numbers. -/
def jsMin (a b : ℚ) : ℚ := if a ≤ b then a else b

/-- `Math.max` on finite numbers. -/
def jsMax (a b : ℚ) : ℚ := if a ≤ b then b else a

/-- Apply a decimal exponent to a mantissa. -/
def applyExp (q : ℚ) (e : ℤ) : ℚ :=
  if 0 ≤ e then q * pow10 e.toNat else q / pow10 (-e).toNat

/-- `parseFloat` on a character list. -/
def parseFloatL (cs : List Char) : JSNum :=
  let cs1 := cs.dropWhile jsWhitespace
  let sg := parseSign cs1
  if infinityPrefix sg.2 then .inf sg.1
  else
    let ip := sg.2.takeWhile isDig
    let r1 := sg.2.dropWhile isDig
    match r1 with
    | '.' :: r2 =>
      let fp := r2.takeWhile isDig
      let r3 := r2.dropWhile isDig
      if ip = [] ∧ fp = [] then .nan
      else
        let mant : ℚ := (digitsVal ip : ℚ) + (digitsVal fp : ℚ) / pow10 fp.length
        let v := applyExp mant (expValue r3)
        .val (if sg.1 then -v else v)
    | _ =>
      if ip = [] then .nan
      else
        let v := applyExp (digitsVal ip : ℚ) (expValue r1)
        .val (if sg.1 then -v else v)

/-! ## `parseTimeInput` (TrimControls.tsx) -/

/-- `timeStr.split(':')` on characters; splitting the empty string yields
one empty segment, as in JavaScript. -/
def splitOnColon : List Char → List (List Char)
  | [] => [[]]
  | c :: rest =>
    if c = ':' then [] :: splitOnColon rest
    else
      match splitOnColon rest with
      | [] => [[c]]
      | s :: ss => (c :: s) :: ss

/-- The `parts[i] || '0'` fallback: an empty (or absent) segment is replaced
by the string `'0'`. -/
def segOrZero (seg : List Char) : List Char :=
  if seg = [] then ['0'] else seg

/-- `parseTimeInput` from `TrimControls.tsx`: split on `:`; three segments
are hours:minutes:seconds, two are minutes:seconds, any other arity uses
only the first segment as seconds. -/
def parseTimeInputL (cs : List Char) : JSNum :=
  let parts := splitOnColon cs
  if parts.length = 3 then
    (((parseFloatL (segOrZero (parts.getD 0 []))).scale 3600).add
      ((parseFloatL (segOrZero (parts.getD 1 []))).scale 60)).add
      (parseFloatL (segOrZero (parts.getD 2 [])))
  else if parts.length = 2 then
    ((parseFloatL (segOrZero (parts.getD 0 []))).scale 60).add
      (parseFloatL (segOrZero (parts.getD 1 [])))
  else
    parseFloatL (segOrZero (parts.getD 0 []))

/-- `parseTimeInput` on a `String`. -/
def parseTimeInput (s : String) : JSNum := parseTimeInputL s.data

/-! ## Formatting (TrimControls.tsx / TimelineBar.tsx)

`formatTimeInput` renders `H:MM:SS.mmm` when hours are positive and
`M:SS.mmm` otherwise; `formatTime` is the whole-second variant.  Components
come from `Math.floor` and the JavaScript `%` operator. -/

/-- Decimal digit character for `n % 10`. -/
def digitChar (n : ℕ) : Char := Char.ofNat (48 + n % 10)

/-- Decimal digit string of a natural number (`Number.prototype.toString`
for nonnegative integers). -/
def natDigits (n : ℕ) : List Char :=
  if _ : n < 10 then [digitChar n]
  else natDigits (n / 10) ++ [digitChar n]
decreasing_by exact Nat.div_lt_self (by omega) (by norm_num)

/-- Decimal rendering of an integer, with sign. -/
def intDigits (i : ℤ) : List Char :=
  if i < 0 then '-' :: natDigits i.natAbs else natDigits i.toNat

/-- `padStart(len, '0')`. -/
def padZero (len : ℕ) (cs : List Char) : List Char :=
  List.replicate (len - cs.length) '0' ++ cs

/-- JavaScript truncation toward zero, on `ℚ`. -/
def jsTrunc (q : ℚ) : ℤ := if 0 ≤ q then ⌊q⌋ else ⌈q⌉

/-- The JavaScript `%` operator: remainder with the sign of the dividend. -/
def jsMod (a b : ℚ) : ℚ := a - b * jsTrunc (a / b)

/-- `formatTimeInput` from `TrimControls.tsx` (millisecond precision). -/
def formatTimeInputL (t : ℚ) : List Char :=
  let hrs : ℤ := ⌊t / 3600⌋
  let mins : ℤ := ⌊jsMod t 3600 / 60⌋
  let secs : ℤ := ⌊jsMod t 60⌋
  let ms : ℤ := ⌊jsMod t 1 * 1000⌋
  if 0 < hrs then
    intDigits hrs ++ ':' :: padZero 2 (intDigits mins) ++ ':' ::
      padZero 2 (intDigits secs) ++ '.' :: padZero 3 (intDigits ms)
  else
    intDigits mins ++ ':' :: padZero 2 (intDigits secs) ++ '.' ::
      padZero 3 (intDigits ms)

/-- `formatTimeInput` producing a `String`. -/
def formatTimeInput (t : ℚ) : String := ⟨formatTimeInputL t⟩

/-- `formatTime` from `TimelineBar.tsx` (whole seconds). -/
def formatTimeL (t : ℚ) : List Char :=
  let hrs : ℤ := ⌊t / 3600⌋
  let mins : ℤ := ⌊jsMod t 3600 / 60⌋
  let secs : ℤ := ⌊jsMod t 60⌋
  if 0 < hrs then
    intDigits hrs ++ ':' :: padZero 2 (intDigits mins) ++ ':' ::
      padZero 2 (intDigits secs)
  else
    intDigits mins ++ ':' :: padZero 2 (intDigits secs)

/-- `formatTime` producing a `String`. -/
def formatTime (t : ℚ) : String := ⟨formatTimeL t⟩

/-! ## Trim bounds (VideoTrimmer.tsx state + TimelineBar/TrimControls mutations) -/

/-- The `startTime`/`endTime` pair held by `VideoTrimmer`. -/
structure TrimState where
  start : ℚ
  stop : ℚ
deriving DecidableEq

/-- Manual start-time entry (`TrimControls.tsx` start `onChange`): parse the
text; mutate only when `!isNaN(time) && time >= 0 && time < endTime`.
A non-finite parse never mutates: `NaN` fails `!isNaN`, `+Infinity` fails
`time < endTime`, `-Infinity` fails `time >= 0` — hence only the finite
case can change the state. -/
def editStart (raw : List Char) (s : TrimState) : TrimState :=
  match parseTimeInputL raw with
  | .val t => if 0 ≤ t ∧ t < s.stop then { s with start := t } else s
  | _ => s

/-- Manual end-time entry (`TrimControls.tsx` end `onChange`): guard
`!isNaN(time) && time > startTime && time <= duration`; again only a finite
parse can pass the guard. -/
def editEnd (duration : ℚ) (raw : List Char) (s : TrimState) : TrimState :=
  match parseTimeInputL raw with
  | .val t => if s.start < t ∧ t ≤ duration then { s with stop := t } else s
  | _ => s

/-- One `setStart`/`setEnd` mutation of the trim bounds. -/
inductive TrimOp where
  | dragStart (t : ℚ) : TrimOp
  | dragEnd (t : ℚ) : TrimOp
  | editStart (raw : List Char) : TrimOp
  | editEnd (raw : List Char) : TrimOp
  | resetStart : TrimOp
  | resetEnd : TrimOp

/-- Apply one mutation, exactly as the handlers do:
  * drag of the start handle (`TimelineBar.handleMouseMove`):
    `onStartChange(Math.max(0, Math.min(time, endTime - 1)))`;
  * drag of the end handle: `onEndChange(Math.min(duration, Math.max(time,
    startTime + 1)))`;
  * manual entries via `editStart`/`editEnd` above;
  * the two reset buttons: `onStartChange(0)` / `onEndChange(duration)`. -/
def applyTrimOp (duration : ℚ) (s : TrimState) : TrimOp → TrimState
  | .dragStart t => { s with start := jsMax 0 (jsMin t (s.stop - 1)) }
  | .dragEnd t => { s with stop := jsMin duration (jsMax t (s.start + 1)) }
  | .editStart raw => editStart raw s
  | .editEnd raw => editEnd duration raw s
  | .resetStart => { s with start := 0 }
  | .resetEnd => { s with stop := duration }

/-- Apply a sequence of mutations. -/
def applyTrimOps (duration : ℚ) (s : TrimState) (ops : List TrimOp) : TrimState :=
  ops.foldl (applyTrimOp duration) s

/-- The spec's trim-bounds invariant with `minGap = 1`. -/
def minGapInv (duration : ℚ) (s : TrimState) : Prop :=
  0 ≤ s.start ∧ s.start + 1 ≤ s.stop ∧ s.stop ≤ duration

/-- The invariant the code actually maintains across all mutations. -/
def weakInv (duration : ℚ) (s : TrimState) : Prop :=
  0 ≤ s.start ∧ s.start < s.stop ∧ s.stop ≤ duration

/-- Is the mutation a manual time entry? -/
def TrimOp.isEdit : TrimOp → Bool
  | .editStart _ => true
  | .editEnd _ => true
  | _ => false

/-! ## Timeline drag state machine (TimelineBar.tsx) -/

/-- Which element a drag is attached to (`'start' | 'end' | 'playhead'`). -/
inductive DragTarget where
  | hstart : DragTarget
  | hend : DragTarget
  | hplayhead : DragTarget
deriving DecidableEq

/-- The `dragging` state of `TimelineBar`. -/
inductive DragState where
  | idle : DragState
  | dragging (h : DragTarget) : DragState
deriving DecidableEq

/-- `handleMouseDown(type)`: `setDragging(type)` unconditionally — there is
no guard on an already-active drag. -/
def timelineMouseDown (h : DragTarget) (_s : DragState) : DragState :=
  .dragging h

/-- `handleMouseUp`: `setDragging(null)`. -/
def timelineMouseUp (_s : DragState) : DragState := .idle

/-- `handleTrackClick`: `if (dragging) return;` else seek to the clicked
time clamped into `[startTime, endTime]`.  Returns the seek request. -/
def timelineTrackClick (s : DragState) (start stop t : ℚ) : Option ℚ :=
  match s with
  | .dragging _ => none
  | .idle => some (jsMax start (jsMin stop t))

/-- `handleCropDragStart` (`VideoTrimmer.tsx`): early-return when there is
no crop, otherwise `setIsDraggingCrop(true)` — regardless of any active
drag.  The crop flag lives in `VideoTrimmer`, independent of the timeline
`dragging` state. -/
def cropDragStart (hasCrop : Bool) (isDraggingCrop : Bool) : Bool :=
  if hasCrop then true else isDraggingCrop

/-! ## Crop geometry (VideoTrimmer.tsx) -/

/-- The `AspectRatio` union from `types/api.ts`. -/
inductive AspectRat where
  | original : AspectRat
  | r9x16 : AspectRat
  | r16x9 : AspectRat
  | r1x1 : AspectRat
  | r4x5 : AspectRat
  | custom : AspectRat
deriving DecidableEq

/-- `CropConfig` from `types/api.ts`. -/
structure CropConfig where
  x : ℚ
  y : ℚ
  width : ℚ
  height : ℚ
  sourceWidth : ℚ
  sourceHeight : ℚ
deriving DecidableEq

/-- The `ratios` record lookup with the `|| [videoWidth, videoHeight]`
fallback: only the four named ratios are keys; any other non-`original`
value falls back to the source's own dimensions. -/
def ratioLookup (r : AspectRat) (videoWidth videoHeight : ℚ) : ℚ × ℚ :=
  match r with
  | .r9x16 => (9, 16)
  | .r16x9 => (16, 9)
  | .r1x1 => (1, 1)
  | .r4x5 => (4, 5)
  | _ => (videoWidth, videoHeight)

/-- `calculateCropForRatio` from `VideoTrimmer.tsx`. -/
def calculateCropForRatio (r : AspectRat) (videoWidth videoHeight : ℚ) :
    Option CropConfig :=
  if r = .original then none
  else
    let pair := ratioLookup r videoWidth videoHeight
    let target := pair.1 / pair.2
    let current := videoWidth / videoHeight
    let wh : ℚ × ℚ :=
      if current < target then (videoWidth, videoWidth / target)
      else (videoHeight * target, videoHeight)
    some { x := (videoWidth - wh.1) / 2, y := (videoHeight - wh.2) / 2,
           width := wh.1, height := wh.2,
           sourceWidth := videoWidth, sourceHeight := videoHeight }

/-- The named numeric ratios of the spec (`9:16`, `16:9`, `1:1`, `4:5`). -/
def namedRat : AspectRat → Option (ℚ × ℚ)
  | .r9x16 => some (9, 16)
  | .r16x9 => some (16, 9)
  | .r1x1 => some (1, 1)
  | .r4x5 => some (4, 5)
  | _ => none

/-- A crop rect of the given dimensions centered in the source frame, as
the spec describes step 6 of `computeCrop`. -/
def centeredRect (videoWidth videoHeight cw ch : ℚ) : CropConfig :=
  { x := (videoWidth - cw) / 2, y := (videoHeight - ch) / 2,
    width := cw, height := ch,
    sourceWidth := videoWidth, sourceHeight := videoHeight }

/-- Crop drag translation (the `handleMouseMove` of the crop-drag effect in
`VideoTrimmer.tsx`): convert the pixel delta to source space with the
`metadata.width / rect.width` scale factors, add to the anchor origin, and
clamp into the source frame.  Width and height are copied unchanged. -/
def translateCrop (videoWidth videoHeight : ℚ) (crop : CropConfig)
    (deltaX deltaY scaleX scaleY : ℚ) : CropConfig :=
  { crop with
    x := jsMax 0 (jsMin (videoWidth - crop.width) (crop.x + deltaX * scaleX)),
    y := jsMax 0 (jsMin (videoHeight - crop.height) (crop.y + deltaY * scaleY)) }

/-! ## Playback control (useYouTubePlayer.ts / VideoTrimmer.tsx) -/

/-- `seekTo` of the YouTube hook: clamp the requested time below by
`startTime` and, when an end bound exists, above by `endTime`, then apply
to the backend.  Returns the applied time. -/
def seekToYT (start : ℚ) (stop : Option ℚ) (t : ℚ) : ℚ :=
  let t1 := if t < start then start else t
  match stop with
  | some e => if e < t1 then e else t1
  | none => t1

/-- `handleSeek` of `VideoTrimmer.tsx`: the YouTube path goes through the
hook's clamping `seekTo`; the local path assigns `video.currentTime = time`
directly.  Returns the time applied to the backend. -/
def handleSeek (isYouTube : Bool) (start stop t : ℚ) : ℚ :=
  if isYouTube then seekToYT start (some stop) t else t

/-- Is the position outside `[start, stop)`?  The test used by `play` in
the YouTube hook (`current < start || (end !== undefined && current >=
end)`). -/
def outsideBounds (start : ℚ) (stop : Option ℚ) (pos : ℚ) : Bool :=
  decide (pos < start) ||
    (match stop with
     | some e => decide (e ≤ pos)
     | none => false)

/-- Position from which playback resumes after `play()` on the YouTube
hook: seek to `start` first when outside `[start, end)`. -/
def ytPlayPos (start : ℚ) (stop : Option ℚ) (pos : ℚ) : ℚ :=
  if outsideBounds start stop pos then start else pos

/-- Same rule on the local backend: the paused branch of `handleTogglePlay`
and the `handlePlay` listener both run `if (currentTime < startTime ||
currentTime >= endTime) currentTime = startTime` before playing. -/
def localPlayPos (start stop pos : ℚ) : ℚ :=
  if pos < start ∨ stop ≤ pos then start else pos

/-! ## Bounded loop (poll tick / timeupdate handler) -/

/-- Player state observed by the loop: reported position, whether the
player is playing, and how many pause+seek-to-start events have fired. -/
structure LoopState where
  pos : ℚ
  playing : Bool
  events : ℕ
deriving DecidableEq

/-- One poll tick of the YouTube hook's `onStateChange` interval: the
interval only runs while playing (it is cleared on pause), reads the
current time, publishes it, and if `time >= end` pauses and seeks to
`start` — one pause+seek event. -/
def ytTick (start stop : ℚ) (s : LoopState) (t : ℚ) : LoopState :=
  if s.playing then
    if stop ≤ t then { pos := start, playing := false, events := s.events + 1 }
    else { s with pos := t }
  else s

/-- One `timeupdate` of the local backend's `handleTimeUpdate`: fires while
the video advances; pause+seek-to-start at `currentTime >= endTime`, and a
plain seek to `startTime` when playing before the start bound. -/
def localTick (start stop : ℚ) (s : LoopState) (t : ℚ) : LoopState :=
  if s.playing then
    if stop ≤ t then { pos := start, playing := false, events := s.events + 1 }
    else if t < start then { s with pos := start }
    else { s with pos := t }
  else s

/-- Run a sequence of observed time updates through the YouTube poll. -/
def runYtTicks (start stop : ℚ) (s : LoopState) (obs : List ℚ) : LoopState :=
  obs.foldl (ytTick start stop) s

/-- Run a sequence of observed time updates through the local handler. -/
def runLocalTicks (start stop : ℚ) (s : LoopState) (obs : List ℚ) : LoopState :=
  obs.foldl (localTick start stop) s

/-- The colon-segments of the input that `parseTimeInput` actually reads:
all of them at arity three or two, only the first one otherwise. -/
def consumedSegs (cs : List Char) : List (List Char) :=
  let parts := splitOnColon cs
  if parts.length = 3 then parts
  else if parts.length = 2 then parts
  else parts.take 1

/-! # Theorems -/

/-- `Math.min` agrees with the order-theoretic minimum. -/
theorem jsMin_eq (a b : ℚ) : jsMin a b = min a b := (min_def a b).symm

/-- `Math.max` agrees with the order-theoretic maximum. -/
theorem jsMax_eq (a b : ℚ) : jsMax a b = max a b := (max_def a b).symm

theorem JSNum.nan_add (x : JSNum) : JSNum.nan.add x = .nan := by cases x <;> rfl

theorem JSNum.add_nan (x : JSNum) : x.add .nan = .nan := by cases x <;> rfl

theorem JSNum.scale_nan (c : ℚ) : JSNum.scale c .nan = .nan := rfl

/-- C2: on every observed time update (poll tick of the YouTube hook,
`timeupdate` of the local backend), an observation `t ≥ end` while playing
pauses and seeks to `start`, firing exactly one pause+seek event; a paused
player absorbs observations (the poll interval is cleared on pause, the
local element stops emitting `timeupdate`), so no further pause/seek occurs
until an explicit `play()`; and the observation sequence `5,6,7,9,10,11`
under bounds `start = 5, end = 10` produces exactly one pause+seek-to-5
event, at the first observation `≥ 10`. -/
theorem loop_pause_seek_once (start stop t : ℚ) (s : LoopState)
    (hp : s.playing = true) (hc : stop ≤ t) :
    ytTick start stop s t = ⟨start, false, s.events + 1⟩ ∧
    localTick start stop s t = ⟨start, false, s.events + 1⟩ ∧
    (∀ s' : LoopState, s'.playing = false → ∀ u : ℚ,
      ytTick start stop s' u = s' ∧ localTick start stop s' u = s') ∧
    runYtTicks 5 10 ⟨5, true, 0⟩ [5, 6, 7, 9, 10, 11] = ⟨5, false, 1⟩ ∧
    runLocalTicks 5 10 ⟨5, true, 0⟩ [5, 6, 7, 9, 10, 11] = ⟨5, false, 1⟩ := by
  refine ⟨?_, ?_, ?_, ?_, ?_⟩
  · simp [ytTick, hp, hc]
  · simp [localTick, hp, hc]
  · intro s' hs' u
    constructor <;> simp [ytTick, localTick, hs']
  · with_unfolding_all decide
  · with_unfolding_all decide

/-- Witness for `loop_pause_seek_once` at `start = 5`, `end = 10`, a playing
state at position 7, observation 10. -/
theorem loop_pause_seek_once_witness :
    LoopState.playing ⟨7, true, 0⟩ = true ∧ (10 : ℚ) ≤ 10 ∧
    ytTick 5 10 ⟨7, true, 0⟩ 10 = ⟨5, false, 1⟩ :=
  ⟨rfl, le_refl _, (loop_pause_seek_once 5 10 10 ⟨7, true, 0⟩ rfl (le_refl _)).1⟩

/-- C4 (counterexample): a pointer-down on the end handle while the start
handle is being dragged is not ignored — `handleMouseDown` runs
`setDragging(type)` unconditionally, so the machine moves to `DraggingEnd`
instead of staying in `DraggingStart`. -/
theorem pointer_down_not_ignored :
    timelineMouseDown .hend (.dragging .hstart) = .dragging .hend ∧
    DragState.dragging .hend ≠ DragState.dragging .hstart := by
  exact ⟨rfl, by decide⟩

/-- C4 (amended): a pointer-down on a timeline handle always starts a drag
session for that handle, replacing any active one (Dragging A → Dragging B
directly); pointer-up returns to idle from every state; the timeline holds
at most one active handle at a time (a single `dragging` value), and a
track click during any drag session is ignored; the crop-box drag flag is
set by its own pointer-down independently of the timeline state. -/
theorem drag_session_replacement (h h' : DragTarget) (s : DragState)
    (start stop t : ℚ) (d : Bool) :
    timelineMouseDown h s = .dragging h ∧
    timelineMouseUp s = .idle ∧
    timelineTrackClick (.dragging h') start stop t = none ∧
    timelineTrackClick .idle start stop t = some (max start (min stop t)) ∧
    cropDragStart true d = true := by
  refine ⟨rfl, rfl, rfl, ?_, rfl⟩
  simp [timelineTrackClick, jsMax_eq, jsMin_eq]

/-- C5 (counterexample): on the local backend path, `handleSeek` assigns
the raw requested time to `video.currentTime` without clamping: a request
of 11 against bounds `[0, 10]` applies 11, not `max(0, min(10, 11)) = 10`. -/
theorem local_seek_unclamped :
    handleSeek false 0 10 11 = 11 ∧ (11 : ℚ) ≠ max 0 (min 10 11) := by
  constructor
  · rfl
  · norm_num

/-- C5 (amended): the YouTube path clamps inside the hook's `seekTo` —
for `start ≤ end` the applied time is `max(start, min(end, t))`; the local
path applies the requested time unclamped, and its UI callers (track click,
playhead drag, progress-bar click) clamp before requesting, so a
caller-clamped local seek also applies `max(start, min(end, t))`. -/
theorem seek_clamp_paths (start stop t : ℚ) (h : start ≤ stop) :
    seekToYT start (some stop) t = max start (min stop t) ∧
    handleSeek true start stop t = max start (min stop t) ∧
    handleSeek false start stop t = t ∧
    (∀ u, timelineTrackClick .idle start stop t = some u →
      handleSeek false start stop u = max start (min stop t)) := by
  have h1 : seekToYT start (some stop) t = max start (min stop t) := by
    simp only [seekToYT]
    split_ifs with h1 h2 h3
    · exact absurd h2 (not_lt.2 h)
    · rw [min_eq_right (le_of_lt (lt_of_lt_of_le h1 h)), max_eq_left (le_of_lt h1)]
    · rw [min_eq_left (le_of_lt h3), max_eq_right h]
    · rw [min_eq_right (not_lt.1 h3), max_eq_right (not_lt.1 h1)]
  refine ⟨h1, h1, rfl, ?_⟩
  intro u hu
  have : u = jsMax start (jsMin stop t) := (Option.some.inj hu).symm
  rw [this]
  simp [handleSeek, jsMax_eq, jsMin_eq]

/-- Witness for `seek_clamp_paths` at `start = 0`, `end = 10`, `t = 11`. -/
theorem seek_clamp_paths_witness :
    (0 : ℚ) ≤ 10 ∧ seekToYT 0 (some 10) 11 = max 0 (min 10 11) :=
  ⟨by norm_num, (seek_clamp_paths 0 10 11 (by norm_num)).1⟩

/-- C6: `play()` resumes from `start` when the current position lies
outside `[start, end)` and from the unchanged position otherwise; the
YouTube hook's `play` and the local `handleTogglePlay`/`handlePlay` paths
implement the same rule, and the resulting resume position always lies in
`[start, end)` when `start < end`. -/
theorem play_resumes_within_bounds (start stop pos : ℚ) (h : start < stop) :
    ((pos < start ∨ stop ≤ pos) →
      ytPlayPos start (some stop) pos = start ∧ localPlayPos start stop pos = start) ∧
    (start ≤ pos → pos < stop →
      ytPlayPos start (some stop) pos = pos ∧ localPlayPos start stop pos = pos) ∧
    ytPlayPos start (some stop) pos = localPlayPos start stop pos ∧
    start ≤ localPlayPos start stop pos ∧ localPlayPos start stop pos < stop := by
  have he : ytPlayPos start (some stop) pos = localPlayPos start stop pos := by
    simp [ytPlayPos, localPlayPos, outsideBounds]
  refine ⟨fun hout => ?_, fun h1 h2 => ?_, he, ?_, ?_⟩
  · rw [he]
    simp [localPlayPos, hout]
  · rw [he]
    have : ¬(pos < start ∨ stop ≤ pos) := by push_neg; exact ⟨h1, h2⟩
    simp [localPlayPos, this]
  · by_cases hout : pos < start ∨ stop ≤ pos
    · simp [localPlayPos, hout]
    · simp only [localPlayPos, if_neg hout]
      push_neg at hout
      exact hout.1
  · by_cases hout : pos < start ∨ stop ≤ pos
    · simp [localPlayPos, hout, h]
    · simp only [localPlayPos, if_neg hout]
      push_neg at hout
      exact hout.2

/-- Witness for `play_resumes_within_bounds` at `start = 5`, `end = 10`,
position 12 (outside, so play seeks to 5). -/
theorem play_resumes_within_bounds_witness :
    (5 : ℚ) < 10 ∧ ((12 : ℚ) < 5 ∨ (10 : ℚ) ≤ 12) ∧
    ytPlayPos 5 (some 10) 12 = 5 ∧ localPlayPos 5 10 12 = 5 :=
  ⟨by norm_num, Or.inr (by norm_num),
    ((play_resumes_within_bounds 5 10 12 (by norm_num)).1 (Or.inr (by norm_num))).1,
    ((play_resumes_within_bounds 5 10 12 (by norm_num)).1 (Or.inr (by norm_num))).2⟩

/-- C7: the crop drag converts the pixel delta to source space with the
scale factors, adds it to the anchor origin, clamps the origin into
`0 ≤ x ≤ sourceWidth − width`, `0 ≤ y ≤ sourceHeight − height` (for a crop
that fits in the frame), and never alters width or height; in particular
for source 1920×1080, crop (860, 440, 200×200) and pixel delta (−2000, 0)
at unit scale the result keeps y = 440 and clamps x to 0. -/
theorem translateCrop_clamps_preserves_dims (videoWidth videoHeight : ℚ)
    (crop : CropConfig) (deltaX deltaY scaleX scaleY : ℚ)
    (hw : crop.width ≤ videoWidth) (hh : crop.height ≤ videoHeight) :
    (0 ≤ (translateCrop videoWidth videoHeight crop deltaX deltaY scaleX scaleY).x ∧
      (translateCrop videoWidth videoHeight crop deltaX deltaY scaleX scaleY).x ≤
        videoWidth - crop.width) ∧
    (0 ≤ (translateCrop videoWidth videoHeight crop deltaX deltaY scaleX scaleY).y ∧
      (translateCrop videoWidth videoHeight crop deltaX deltaY scaleX scaleY).y ≤
        videoHeight - crop.height) ∧
    (translateCrop videoWidth videoHeight crop deltaX deltaY scaleX scaleY).x =
      max 0 (min (videoWidth - crop.width) (crop.x + deltaX * scaleX)) ∧
    (translateCrop videoWidth videoHeight crop deltaX deltaY scaleX scaleY).y =
      max 0 (min (videoHeight - crop.height) (crop.y + deltaY * scaleY)) ∧
    (translateCrop videoWidth videoHeight crop deltaX deltaY scaleX scaleY).width =
      crop.width ∧
    (translateCrop videoWidth videoHeight crop deltaX deltaY scaleX scaleY).height =
      crop.height ∧
    translateCrop 1920 1080 ⟨860, 440, 200, 200, 1920, 1080⟩ (-2000) 0 1 1 =
      ⟨0, 440, 200, 200, 1920, 1080⟩ := by
  have hx : (translateCrop videoWidth videoHeight crop deltaX deltaY scaleX scaleY).x =
      max 0 (min (videoWidth - crop.width) (crop.x + deltaX * scaleX)) := by
    simp [translateCrop, jsMax_eq, jsMin_eq]
  have hy : (translateCrop videoWidth videoHeight crop deltaX deltaY scaleX scaleY).y =
      max 0 (min (videoHeight - crop.height) (crop.y + deltaY * scaleY)) := by
    simp [translateCrop, jsMax_eq, jsMin_eq]
  refine ⟨⟨?_, ?_⟩, ⟨?_, ?_⟩, hx, hy, rfl, rfl, ?_⟩
  · rw [hx]; exact le_max_left _ _
  · rw [hx]; exact max_le (by linarith) (min_le_left _ _)
  · rw [hy]; exact le_max_left _ _
  · rw [hy]; exact max_le (by linarith) (min_le_left _ _)
  · simp [translateCrop, jsMax, jsMin]
    norm_num

/-- Witness for `translateCrop_clamps_preserves_dims` at the concrete
scenario of the claim. -/
theorem translateCrop_clamps_preserves_dims_witness :
    (CropConfig.width ⟨860, 440, 200, 200, 1920, 1080⟩ ≤ (1920 : ℚ)) ∧
    (translateCrop 1920 1080 ⟨860, 440, 200, 200, 1920, 1080⟩ (-2000) 0 1 1).x = 0 ∧
    (translateCrop 1920 1080 ⟨860, 440, 200, 200, 1920, 1080⟩ (-2000) 0 1 1).width =
      CropConfig.width ⟨860, 440, 200, 200, 1920, 1080⟩ := by
  refine ⟨by norm_num, ?_, ?_⟩
  · have := (translateCrop_clamps_preserves_dims 1920 1080
      ⟨860, 440, 200, 200, 1920, 1080⟩ (-2000) 0 1 1 (by norm_num) (by norm_num)).2.2.2.2.2.2
    rw [this]
  · exact (translateCrop_clamps_preserves_dims 1920 1080
      ⟨860, 440, 200, 200, 1920, 1080⟩ (-2000) 0 1 1 (by norm_num) (by norm_num)).2.2.2.2.1

/-- C3: `calculateCropForRatio` returns `null` exactly for `original`; a
named ratio `rw:rh` uses the width-limited fit when `rw/rh` exceeds the
source ratio and the height-limited fit otherwise, centered in the frame;
an unknown ratio (`custom`) falls back to the source's own ratio and
returns the full-frame rect, not `null`; and
`computeCrop('16:9', 1080, 1920) = {x: 0, y: 656.25, width: 1080,
height: 607.5}`. -/
theorem computeCrop_cases (w h : ℚ) (hw : 0 < w) (hh : 0 < h) :
    calculateCropForRatio .original w h = none ∧
    (∀ r : AspectRat, r ≠ .original →
      (calculateCropForRatio r w h).isSome = true) ∧
    calculateCropForRatio .custom w h = some (centeredRect w h w h) ∧
    (∀ r rw rh, namedRat r = some (rw, rh) →
      calculateCropForRatio r w h =
        some (if w / h < rw / rh then centeredRect w h w (w / (rw / rh))
              else centeredRect w h (h * (rw / rh)) h)) ∧
    calculateCropForRatio .r16x9 1080 1920 =
      some ⟨0, 2625 / 4, 1080, 1215 / 2, 1080, 1920⟩ := by
  refine ⟨rfl, ?_, ?_, ?_, ?_⟩
  · intro r hr
    cases r <;> simp_all [calculateCropForRatio]
  · have hfull : h * (w / h) = w := by
      rw [mul_comm]
      exact div_mul_cancel₀ w (ne_of_gt hh)
    simp [calculateCropForRatio, ratioLookup, centeredRect, hfull]
  · intro r rw rh hr
    cases r <;> simp only [namedRat, Option.some.injEq, Prod.mk.injEq,
      reduceCtorEq] at hr
    all_goals obtain ⟨h1, h2⟩ := hr
    all_goals subst h1
    all_goals subst h2
    all_goals simp only [calculateCropForRatio, ratioLookup, reduceCtorEq,
      if_false]
    all_goals split_ifs <;> rfl
  · simp [calculateCropForRatio, ratioLookup]
    norm_num

/-- Witness for `computeCrop_cases` at source 1080×1920. -/
theorem computeCrop_cases_witness :
    (0 : ℚ) < 1080 ∧ (0 : ℚ) < 1920 ∧
    calculateCropForRatio .original 1080 1920 = none ∧
    calculateCropForRatio .r16x9 1080 1920 =
      some ⟨0, 2625 / 4, 1080, 1215 / 2, 1080, 1920⟩ :=
  ⟨by norm_num, by norm_num,
    (computeCrop_cases 1080 1920 (by norm_num) (by norm_num)).1,
    (computeCrop_cases 1080 1920 (by norm_num) (by norm_num)).2.2.2.2⟩

/-- Every mutation preserves `0 ≤ start < end ≤ duration`. -/
theorem weakInv_step (d : ℚ) (s : TrimState) (op : TrimOp)
    (hs : weakInv d s) : weakInv d (applyTrimOp d s op) := by
  obtain ⟨h0, h1, h2⟩ := hs
  cases op with
  | dragStart t =>
    refine ⟨?_, ?_, h2⟩
    · simp only [applyTrimOp, jsMax_eq, jsMin_eq]
      exact le_max_left _ _
    · simp only [applyTrimOp, jsMax_eq, jsMin_eq]
      exact max_lt (by linarith) (lt_of_le_of_lt (min_le_right _ _) (by linarith))
  | dragEnd t =>
    refine ⟨h0, ?_, ?_⟩
    · simp only [applyTrimOp, jsMax_eq, jsMin_eq]
      exact lt_min (by linarith) (lt_of_lt_of_le (by linarith) (le_max_right _ _))
    · simp only [applyTrimOp, jsMax_eq, jsMin_eq]
      exact min_le_left _ _
  | editStart raw =>
    simp only [applyTrimOp, editStart]
    split
    · split_ifs with hg
      · exact ⟨hg.1, hg.2, h2⟩
      · exact ⟨h0, h1, h2⟩
    · exact ⟨h0, h1, h2⟩
  | editEnd raw =>
    simp only [applyTrimOp, editEnd]
    split
    · split_ifs with hg
      · exact ⟨h0, hg.1, hg.2⟩
      · exact ⟨h0, h1, h2⟩
    · exact ⟨h0, h1, h2⟩
  | resetStart => exact ⟨le_refl 0, by simp only [applyTrimOp]; linarith, h2⟩
  | resetEnd => exact ⟨h0, by simp only [applyTrimOp]; linarith, le_refl d⟩

/-- Drags and resets additionally preserve the `minGap = 1` invariant. -/
theorem minGapInv_step (d : ℚ) (s : TrimState) (op : TrimOp)
    (hop : op.isEdit = false) (hs : minGapInv d s) :
    minGapInv d (applyTrimOp d s op) := by
  obtain ⟨h0, h1, h2⟩ := hs
  cases op with
  | dragStart t =>
    refine ⟨?_, ?_, h2⟩
    · simp only [applyTrimOp, jsMax_eq, jsMin_eq]
      exact le_max_left _ _
    · simp only [applyTrimOp, jsMax_eq, jsMin_eq]
      have : max 0 (min t (s.stop - 1)) ≤ s.stop - 1 :=
        max_le (by linarith) (min_le_right _ _)
      linarith
  | dragEnd t =>
    refine ⟨h0, ?_, ?_⟩
    · simp only [applyTrimOp, jsMax_eq, jsMin_eq]
      exact le_min (by linarith) (le_max_right _ _)
    · simp only [applyTrimOp, jsMax_eq, jsMin_eq]
      exact min_le_left _ _
  | editStart raw => exact absurd hop (by simp [TrimOp.isEdit])
  | editEnd raw => exact absurd hop (by simp [TrimOp.isEdit])
  | resetStart => exact ⟨le_refl 0, by simp only [applyTrimOp]; linarith, h2⟩
  | resetEnd => exact ⟨h0, by simp only [applyTrimOp]; linarith, le_refl d⟩

/-- Invariant preservation over a sequence of mutations. -/
theorem weakInv_foldl (d : ℚ) (ops : List TrimOp) :
    ∀ s : TrimState, weakInv d s → weakInv d (applyTrimOps d s ops) := by
  induction ops with
  | nil => exact fun _ hs => hs
  | cons op rest ih => exact fun s hs => ih _ (weakInv_step d s op hs)

/-- minGap-invariant preservation over drag/reset-only sequences. -/
theorem minGapInv_foldl (d : ℚ) (ops : List TrimOp) :
    ∀ s : TrimState, (∀ op ∈ ops, op.isEdit = false) → minGapInv d s →
      minGapInv d (applyTrimOps d s ops) := by
  induction ops with
  | nil => exact fun _ _ hs => hs
  | cons op rest ih =>
    intro s hops hs
    exact ih _ (fun o ho => hops o (List.mem_cons_of_mem op ho))
      (minGapInv_step d s op (hops op (List.mem_cons_self op rest)) hs)

/-- C1 (counterexample): starting from `(start, end) = (0, 2)` with
`duration = 2 > 1`, the manual start entry `"1.5"` passes the
`time >= 0 && time < endTime` guard and sets `start = 1.5`, violating
`start + 1 ≤ end`: the minGap invariant does not survive manual
time-entry edits. -/
theorem manual_edit_violates_minGap :
    (1 : ℚ) < 2 ∧
    applyTrimOps 2 ⟨0, 2⟩ [.editStart ['1', '.', '5']] = ⟨3 / 2, 2⟩ ∧
    ¬ minGapInv 2 ⟨3 / 2, 2⟩ := by
  refine ⟨by norm_num, by with_unfolding_all decide, ?_⟩
  unfold minGapInv
  with_unfolding_all decide

/-- C1 (amended): for every duration > 1 and every sequence of
`setStart`/`setEnd` mutations starting from `start = 0, end = duration`,
the invariant `0 ≤ start < end ≤ duration` holds after every mutation;
the stronger minGap form `0 ≤ start ∧ start + 1 ≤ end ≤ duration` holds
whenever no mutation in the sequence is a manual time entry (drags enforce
the 1-second gap, the manual-entry guards only enforce `start < end`). -/
theorem trim_bounds_invariant (d : ℚ) (hd : 1 < d) (ops : List TrimOp) :
    weakInv d (applyTrimOps d ⟨0, d⟩ ops) ∧
    ((∀ op ∈ ops, op.isEdit = false) →
      minGapInv d (applyTrimOps d ⟨0, d⟩ ops)) := by
  constructor
  · exact weakInv_foldl d ops ⟨0, d⟩
      ⟨le_refl 0, by show (0 : ℚ) < d; linarith, le_refl d⟩
  · intro hops
    exact minGapInv_foldl d ops ⟨0, d⟩ hops
      ⟨le_refl 0, by show (0 : ℚ) + 1 ≤ d; linarith, le_refl d⟩

/-- Witness for `trim_bounds_invariant`: duration 2, a single drag of the
start handle toward raw target 5. -/
theorem trim_bounds_invariant_witness :
    weakInv 2 (applyTrimOps 2 ⟨0, 2⟩ [.dragStart 5]) ∧
    minGapInv 2 (applyTrimOps 2 ⟨0, 2⟩ [.dragStart 5]) :=
  ⟨(trim_bounds_invariant 2 (by norm_num) [.dragStart 5]).1,
    (trim_bounds_invariant 2 (by norm_num) [.dragStart 5]).2
      (by intro op hop; simp only [List.mem_singleton] at hop; subst hop; rfl)⟩

/-- Splitting always yields at least one segment. -/
theorem splitOnColon_ne_nil (cs : List Char) : splitOnColon cs ≠ [] := by
  induction cs with
  | nil => simp [splitOnColon]
  | cons c rest ih =>
    unfold splitOnColon
    split_ifs
    · simp
    · split <;> simp

/-- C8 (counterexample): `parseFloat` takes the longest numeric prefix, so
a non-numeric segment such as `"5x"` parses to 5 rather than `NaN`, and the
segment `"abc"` of `"1:2:3:abc"` is never even read (four segments fall
back to first-segment-only parsing); `"5x"` moreover passes the edit guard
and mutates the start bound. -/
theorem numeric_prefix_not_nan :
    parseTimeInput "5x" = .val 5 ∧ JSNum.val 5 ≠ .nan ∧
    parseTimeInput "1:2:3:abc" = .val 1 ∧
    editStart ("5x").data ⟨0, 10⟩ = ⟨5, 10⟩ ∧
    (⟨5, 10⟩ : TrimState) ≠ ⟨0, 10⟩ := by
  refine ⟨?_, ?_, ?_, ?_, ?_⟩ <;> with_unfolding_all decide

/-- C8 (amended): whenever one of the consumed colon-segments is nonempty
and has no parseable numeric prefix (`parseFloat` yields `NaN` on it),
`parseTimeInput` yields `NaN`, and the edit boundary rejects the edit: the
guards `!isNaN(time) && ...` fail, no mutation of start or end occurs, no
fault is raised, and the prior value is retained. -/
theorem invalid_entry_rejected (cs seg : List Char)
    (hmem : seg ∈ consumedSegs cs) (hne : seg ≠ [])
    (hnan : parseFloatL seg = .nan) (d : ℚ) (s : TrimState) :
    parseTimeInputL cs = .nan ∧ editStart cs s = s ∧ editEnd d cs s = s := by
  have hseg : segOrZero seg = seg := if_neg hne
  have hmain : parseTimeInputL cs = .nan := by
    unfold parseTimeInputL
    by_cases h3 : (splitOnColon cs).length = 3
    · rw [if_pos h3]
      have hcs : consumedSegs cs = splitOnColon cs := by
        unfold consumedSegs
        rw [if_pos h3]
      rw [hcs] at hmem
      obtain ⟨a, b, c, habc⟩ := List.length_eq_three.1 h3
      rw [habc] at hmem ⊢
      simp only [List.mem_cons, List.not_mem_nil, or_false] at hmem
      rcases hmem with rfl | rfl | rfl <;>
        simp [hseg, hnan, JSNum.scale_nan, JSNum.nan_add, JSNum.add_nan]
    · by_cases h2 : (splitOnColon cs).length = 2
      · rw [if_neg h3, if_pos h2]
        have hcs : consumedSegs cs = splitOnColon cs := by
          unfold consumedSegs
          rw [if_neg h3, if_pos h2]
        rw [hcs] at hmem
        obtain ⟨a, b, habc⟩ := List.length_eq_two.1 h2
        rw [habc] at hmem ⊢
        simp only [List.mem_cons, List.not_mem_nil, or_false] at hmem
        rcases hmem with rfl | rfl <;>
          simp [hseg, hnan, JSNum.scale_nan, JSNum.nan_add, JSNum.add_nan]
      · rw [if_neg h3, if_neg h2]
        have hcs : consumedSegs cs = (splitOnColon cs).take 1 := by
          unfold consumedSegs
          rw [if_neg h3, if_neg h2]
        rw [hcs] at hmem
        obtain ⟨p, rest, hp⟩ := List.exists_cons_of_ne_nil (splitOnColon_ne_nil cs)
        rw [hp] at hmem ⊢
        have hmem' : seg = p := by simpa using hmem
        subst hmem'
        simp [hseg, hnan]
  refine ⟨hmain, ?_, ?_⟩
  · unfold editStart
    rw [hmain]
  · unfold editEnd
    rw [hmain]

/-- Witness for `invalid_entry_rejected` on the input `"ab:3"` against
state `(1, 5)` with duration 10. -/
theorem invalid_entry_rejected_witness :
    ("ab".data ∈ consumedSegs ("ab:3").data) ∧
    parseTimeInputL ("ab:3").data = .nan ∧
    editStart ("ab:3").data ⟨1, 5⟩ = ⟨1, 5⟩ ∧
    editEnd 10 ("ab:3").data ⟨1, 5⟩ = ⟨1, 5⟩ := by
  refine ⟨by with_unfolding_all decide, ?_⟩
  exact invalid_entry_rejected ("ab:3").data ("ab").data
    (by with_unfolding_all decide) (by with_unfolding_all decide)
    (by with_unfolding_all decide) 10 ⟨1, 5⟩

/-- C10 (counterexample): with an empty first segment (`":1:2:3"` has four
segments), `parseTimeInput` returns 0 via the `parts[0] || '0'` fallback,
although `parseFloat` of the first segment itself is `NaN` — the result is
not "the numeric value of the first segment". -/
theorem empty_first_segment_fallback :
    3 < (splitOnColon (":1:2:3").data).length ∧
    parseFloatL ((splitOnColon (":1:2:3").data).getD 0 []) = .nan ∧
    parseTimeInput ":1:2:3" = .val 0 ∧ JSNum.val 0 ≠ .nan := by
  refine ⟨?_, ?_, ?_, ?_⟩ <;> with_unfolding_all decide

/-- C10 (amended): for every input with more than three colon-separated
segments and a nonempty first segment, `parseTimeInput` returns exactly
`parseFloat` of the first segment, interpreted as seconds; the remaining
segments are silently ignored (an empty first segment falls back to `'0'`
instead). -/
theorem extra_segments_first_only (cs : List Char)
    (hlen : 3 < (splitOnColon cs).length)
    (hne : (splitOnColon cs).getD 0 [] ≠ []) :
    parseTimeInputL cs = parseFloatL ((splitOnColon cs).getD 0 []) := by
  unfold parseTimeInputL
  rw [if_neg (by omega), if_neg (by omega)]
  unfold segOrZero
  rw [if_neg hne]

/-- Witness for `extra_segments_first_only` at the claim's example
`"1:02:03:04"`, whose parse is the first segment's value 1. -/
theorem extra_segments_first_only_witness :
    3 < (splitOnColon ("1:02:03:04").data).length ∧
    parseTimeInputL ("1:02:03:04").data =
      parseFloatL ((splitOnColon ("1:02:03:04").data).getD 0 []) ∧
    parseFloatL ((splitOnColon ("1:02:03:04").data).getD 0 []) = .val 1 := by
  refine ⟨by with_unfolding_all decide, ?_, by with_unfolding_all decide⟩
  exact extra_segments_first_only ("1:02:03:04").data
    (by with_unfolding_all decide) (by with_unfolding_all decide)

/-! ## Digit strings and the decimal round trip -/

theorem digitChar_toNat (n : ℕ) : (digitChar n).toNat = 48 + n % 10 := by
  have h : n % 10 < 10 := Nat.mod_lt _ (by norm_num)
  unfold digitChar
  set k := n % 10 with hk
  interval_cases k <;> rfl

theorem digitChar_isDig (n : ℕ) : isDig (digitChar n) = true := by
  have h : n % 10 < 10 := Nat.mod_lt _ (by norm_num)
  simp only [isDig, Bool.and_eq_true, decide_eq_true_eq, digitChar_toNat]
  omega

theorem digitVal_digitChar (n : ℕ) : digitVal (digitChar n) = n % 10 := by
  simp [digitVal, digitChar_toNat]

theorem isDig_toNat {c : Char} (h : isDig c = true) :
    48 ≤ c.toNat ∧ c.toNat ≤ 57 := by
  simpa [isDig] using h

theorem isDig_ne {c : Char} (h : isDig c = true) {k : Char}
    (hk : k.toNat < 48 ∨ 57 < k.toNat) : c ≠ k := by
  obtain ⟨hl, hr⟩ := isDig_toNat h
  intro he
  subst he
  omega

theorem isDig_not_ws {c : Char} (h : isDig c = true) :
    jsWhitespace c = false := by
  have h1 := isDig_ne h (k := ' ') (by decide)
  have h2 := isDig_ne h (k := '\t') (by decide)
  have h3 := isDig_ne h (k := '\n') (by decide)
  have h4 := isDig_ne h (k := '\r') (by decide)
  simp [jsWhitespace, h1, h2, h3, h4]

theorem natDigits_all_dig (n : ℕ) : ∀ c ∈ natDigits n, isDig c = true := by
  induction n using Nat.strong_induction_on with
  | _ n ih =>
    rw [natDigits]
    split_ifs with h
    · intro c hc
      simp only [List.mem_singleton] at hc
      subst hc
      exact digitChar_isDig n
    · intro c hc
      simp only [List.mem_append, List.mem_singleton] at hc
      rcases hc with hc | hc
      · exact ih (n / 10) (Nat.div_lt_self (by omega) (by norm_num)) c hc
      · subst hc
        exact digitChar_isDig n

theorem natDigits_ne_nil (n : ℕ) : natDigits n ≠ [] := by
  rw [natDigits]
  split_ifs <;> simp

theorem digitsValAux_append (acc : ℕ) (xs ys : List Char) :
    digitsValAux acc (xs ++ ys) = digitsValAux (digitsValAux acc xs) ys := by
  induction xs generalizing acc with
  | nil => rfl
  | cons c cs ih =>
    show digitsValAux (10 * acc + digitVal c) (cs ++ ys) =
      digitsValAux (digitsValAux (10 * acc + digitVal c) cs) ys
    exact ih _

theorem digitsValAux_natDigits (n : ℕ) : ∀ acc : ℕ,
    digitsValAux acc (natDigits n) = acc * 10 ^ (natDigits n).length + n := by
  induction n using Nat.strong_induction_on with
  | _ n ih =>
    intro acc
    rw [natDigits]
    split_ifs with h
    · rw [show digitsValAux acc [digitChar n] =
          10 * acc + digitVal (digitChar n) from rfl,
        digitVal_digitChar, Nat.mod_eq_of_lt h]
      simp only [List.length_singleton, pow_one]
      omega
    · rw [digitsValAux_append,
        ih (n / 10) (Nat.div_lt_self (by omega) (by norm_num))]
      rw [show ∀ a : ℕ, digitsValAux a [digitChar n] =
          10 * a + digitVal (digitChar n) from fun _ => rfl,
        digitVal_digitChar]
      simp only [List.length_append, List.length_singleton, pow_succ]
      calc 10 * (acc * 10 ^ (natDigits (n / 10)).length + n / 10) + n % 10
          = acc * (10 ^ (natDigits (n / 10)).length * 10) +
            (10 * (n / 10) + n % 10) := by ring
        _ = acc * (10 ^ (natDigits (n / 10)).length * 10) + n := by
            rw [Nat.div_add_mod]

theorem digitsVal_natDigits (n : ℕ) : digitsVal (natDigits n) = n := by
  have := digitsValAux_natDigits n 0
  simpa [digitsVal] using this

theorem natDigits_length_le (k : ℕ) : ∀ n : ℕ, n < 10 ^ (k + 1) →
    (natDigits n).length ≤ k + 1 := by
  induction k with
  | zero =>
    intro n hn
    rw [natDigits]
    rw [pow_one] at hn
    simp [hn]
  | succ k ih =>
    intro n hn
    rw [natDigits]
    split_ifs with h
    · simp
    · have hdiv : n / 10 < 10 ^ (k + 1) := by
        rw [Nat.div_lt_iff_lt_mul (by norm_num)]
        calc n < 10 ^ (k + 2) := hn
        _ = 10 ^ (k + 1) * 10 := by ring
      simpa using Nat.succ_le_succ (ih (n / 10) hdiv)

theorem digitsValAux_replicate_zero (m : ℕ) :
    digitsValAux 0 (List.replicate m '0') = 0 := by
  induction m with
  | zero => rfl
  | succ m ih =>
    have hstep : digitsValAux 0 (List.replicate (m + 1) '0') =
        digitsValAux (10 * 0 + digitVal '0') (List.replicate m '0') := rfl
    rw [hstep, show 10 * 0 + digitVal '0' = 0 from by decide, ih]

theorem digitsVal_padZero (k : ℕ) (ds : List Char) :
    digitsVal (padZero k ds) = digitsVal ds := by
  unfold digitsVal padZero
  rw [digitsValAux_append, digitsValAux_replicate_zero]

theorem padZero_all_dig (k : ℕ) (ds : List Char)
    (h : ∀ c ∈ ds, isDig c = true) : ∀ c ∈ padZero k ds, isDig c = true := by
  intro c hc
  simp only [padZero, List.mem_append, List.mem_replicate] at hc
  rcases hc with ⟨_, rfl⟩ | hc
  · rfl
  · exact h c hc

theorem padZero_length (k : ℕ) (ds : List Char) (h : ds.length ≤ k) :
    (padZero k ds).length = k := by
  simp [padZero]
  omega

theorem padZero_ne_nil (k : ℕ) (ds : List Char) (h : ds ≠ []) :
    padZero k ds ≠ [] := by
  simp [padZero, h]

theorem intDigits_natCast (n : ℕ) : intDigits (n : ℤ) = natDigits n := by
  unfold intDigits
  rw [if_neg (not_lt.2 (Int.natCast_nonneg n)), Int.toNat_natCast]

theorem takeWhile_all_dig (ds : List Char) (h : ∀ c ∈ ds, isDig c = true) :
    ds.takeWhile isDig = ds ∧ ds.dropWhile isDig = [] := by
  induction ds with
  | nil => exact ⟨rfl, rfl⟩
  | cons c cs ih =>
    have hc : isDig c = true := h c (List.mem_cons_self _ _)
    obtain ⟨h1, h2⟩ := ih (fun x hx => h x (List.mem_cons_of_mem c hx))
    rw [List.takeWhile_cons, List.dropWhile_cons]
    rw [hc]
    simp only [if_true, h1, h2, and_self]

theorem takeWhile_append_stop (a : List Char) (x : Char) (b : List Char)
    (ha : ∀ c ∈ a, isDig c = true) (hx : isDig x = false) :
    (a ++ x :: b).takeWhile isDig = a ∧
      (a ++ x :: b).dropWhile isDig = x :: b := by
  induction a with
  | nil =>
    rw [List.nil_append, List.takeWhile_cons, List.dropWhile_cons, hx]
    simp
  | cons c cs ih =>
    have hc : isDig c = true := ha c (List.mem_cons_self _ _)
    obtain ⟨h1, h2⟩ := ih (fun y hy => ha y (List.mem_cons_of_mem c hy))
    rw [List.cons_append, List.takeWhile_cons, List.dropWhile_cons, hc]
    simp only [if_true, h1, h2, and_self]

/-- A string of decimal digits parses to its digit value. -/
theorem parseFloatL_digits (ds : List Char) (hne : ds ≠ [])
    (h : ∀ c ∈ ds, isDig c = true) :
    parseFloatL ds = .val (digitsVal ds) := by
  obtain ⟨d, rest, rfl⟩ := List.exists_cons_of_ne_nil hne
  have hd : isDig d = true := h d (List.mem_cons_self _ _)
  have hws : (d :: rest).dropWhile jsWhitespace = d :: rest := by
    rw [List.dropWhile_cons, isDig_not_ws hd]
    simp
  have hsign : parseSign (d :: rest) = (false, d :: rest) := by
    show (if d = '-' then (true, rest)
      else if d = '+' then (false, rest) else (false, d :: rest)) =
        (false, d :: rest)
    rw [if_neg (isDig_ne hd (k := '-') (by decide)),
      if_neg (isDig_ne hd (k := '+') (by decide))]
  have hinf : infinityPrefix (d :: rest) = false := by
    simp only [infinityPrefix, List.take_succ_cons, decide_eq_false_iff_not]
    intro hcon
    exact isDig_ne hd (k := 'I') (by decide) (List.cons.injEq .. ▸ hcon).1
  obtain ⟨htake, hdrop⟩ := takeWhile_all_dig (d :: rest) h
  simp [parseFloatL, hws, hsign, hinf, htake, hdrop, expValue, applyExp,
    pow10]

/-- `digits.digits` (the first block nonempty) parses to the integer part
plus the fraction scaled by its length. -/
theorem parseFloatL_digits_frac (a b : List Char) (hne : a ≠ [])
    (ha : ∀ c ∈ a, isDig c = true) (hb : ∀ c ∈ b, isDig c = true) :
    parseFloatL (a ++ '.' :: b) =
      .val ((digitsVal a : ℚ) + (digitsVal b : ℚ) / pow10 b.length) := by
  obtain ⟨d, arest, rfl⟩ := List.exists_cons_of_ne_nil hne
  have hd : isDig d = true := ha d (List.mem_cons_self _ _)
  have hws : (d :: (arest ++ '.' :: b)).dropWhile jsWhitespace =
      d :: (arest ++ '.' :: b) := by
    rw [List.dropWhile_cons, isDig_not_ws hd]
    simp
  have hsign : parseSign (d :: (arest ++ '.' :: b)) =
      (false, d :: (arest ++ '.' :: b)) := by
    show (if d = '-' then (true, arest ++ '.' :: b)
      else if d = '+' then (false, arest ++ '.' :: b)
      else (false, d :: (arest ++ '.' :: b))) =
        (false, d :: (arest ++ '.' :: b))
    rw [if_neg (isDig_ne hd (k := '-') (by decide)),
      if_neg (isDig_ne hd (k := '+') (by decide))]
  have hinf : infinityPrefix (d :: (arest ++ '.' :: b)) = false := by
    simp only [infinityPrefix, List.take_succ_cons, decide_eq_false_iff_not]
    intro hcon
    exact isDig_ne hd (k := 'I') (by decide) (List.cons.injEq .. ▸ hcon).1
  obtain ⟨htake, hdrop⟩ :=
    takeWhile_append_stop (d :: arest) '.' b ha (by decide)
  rw [List.cons_append] at htake hdrop
  obtain ⟨hbtake, hbdrop⟩ := takeWhile_all_dig b hb
  simp [parseFloatL, hws, hsign, hinf, htake, hdrop, hbtake, hbdrop,
    expValue, applyExp, pow10]

/-- One unfolding step of `splitOnColon`. -/
theorem splitOnColon_cons (c : Char) (rest : List Char) :
    splitOnColon (c :: rest) =
      if c = ':' then [] :: splitOnColon rest
      else
        match splitOnColon rest with
        | [] => [[c]]
        | s :: ss => (c :: s) :: ss := rfl

/-- Splitting a colon-free prefix followed by a colon. -/
theorem splitOnColon_append (a : List Char) (ha : ∀ c ∈ a, c ≠ ':')
    (b : List Char) : splitOnColon (a ++ ':' :: b) = a :: splitOnColon b := by
  induction a with
  | nil =>
    rw [List.nil_append, splitOnColon_cons, if_pos rfl]
  | cons c cs ih =>
    have hc : c ≠ ':' := ha c (List.mem_cons_self _ _)
    rw [List.cons_append, splitOnColon_cons, if_neg hc,
      ih (fun x hx => ha x (List.mem_cons_of_mem c hx))]

/-- Splitting a colon-free string yields a single segment. -/
theorem splitOnColon_no_colon (cs : List Char) (h : ∀ c ∈ cs, c ≠ ':') :
    splitOnColon cs = [cs] := by
  induction cs with
  | nil => rfl
  | cons c rest ih =>
    have hc : c ≠ ':' := h c (List.mem_cons_self _ _)
    rw [splitOnColon_cons, if_neg hc,
      ih (fun x hx => h x (List.mem_cons_of_mem c hx))]

theorem no_colon_of_dig (ds : List Char) (h : ∀ c ∈ ds, isDig c = true) :
    ∀ c ∈ ds, c ≠ ':' :=
  fun c hc => isDig_ne (h c hc) (k := ':') (by decide)

theorem no_colon_frac (a b : List Char) (ha : ∀ c ∈ a, isDig c = true)
    (hb : ∀ c ∈ b, isDig c = true) : ∀ c ∈ a ++ '.' :: b, c ≠ ':' := by
  intro c hc
  simp only [List.mem_append, List.mem_cons] at hc
  rcases hc with hc | hc | hc
  · exact isDig_ne (ha c hc) (k := ':') (by decide)
  · subst hc; decide
  · exact isDig_ne (hb c hc) (k := ':') (by decide)

/-- Parsing the three-segment millisecond format `H:MM:SS.mmm`. -/
theorem parseTimeInputL_format3 (H M S r : ℕ) (hr : r < 1000) :
    parseTimeInputL (natDigits H ++ ':' :: (padZero 2 (natDigits M) ++ ':' ::
        (padZero 2 (natDigits S) ++ '.' :: padZero 3 (natDigits r)))) =
      .val (3600 * H + 60 * M + (S + (r : ℚ) / 1000)) := by
  have h0 := natDigits_all_dig H
  have h1 := padZero_all_dig 2 (natDigits M) (natDigits_all_dig M)
  have h2a := padZero_all_dig 2 (natDigits S) (natDigits_all_dig S)
  have h2b := padZero_all_dig 3 (natDigits r) (natDigits_all_dig r)
  have hsplit : splitOnColon (natDigits H ++ ':' ::
      (padZero 2 (natDigits M) ++ ':' ::
        (padZero 2 (natDigits S) ++ '.' :: padZero 3 (natDigits r)))) =
      [natDigits H, padZero 2 (natDigits M),
        padZero 2 (natDigits S) ++ '.' :: padZero 3 (natDigits r)] := by
    rw [splitOnColon_append _ (no_colon_of_dig _ h0),
      splitOnColon_append _ (no_colon_of_dig _ h1),
      splitOnColon_no_colon _ (no_colon_frac _ _ h2a h2b)]
  have hne0 : natDigits H ≠ [] := natDigits_ne_nil H
  have hne1 : padZero 2 (natDigits M) ≠ [] :=
    padZero_ne_nil _ _ (natDigits_ne_nil M)
  have hne2 : padZero 2 (natDigits S) ++ '.' :: padZero 3 (natDigits r) ≠ [] :=
    by simp
  have hp0 : parseFloatL (natDigits H) = .val (digitsVal (natDigits H)) :=
    parseFloatL_digits _ hne0 h0
  have hp1 : parseFloatL (padZero 2 (natDigits M)) =
      .val (digitsVal (padZero 2 (natDigits M))) :=
    parseFloatL_digits _ hne1 h1
  have hp2 : parseFloatL
      (padZero 2 (natDigits S) ++ '.' :: padZero 3 (natDigits r)) =
      .val ((digitsVal (padZero 2 (natDigits S)) : ℚ) +
        (digitsVal (padZero 3 (natDigits r)) : ℚ) /
          pow10 (padZero 3 (natDigits r)).length) :=
    parseFloatL_digits_frac _ _ (padZero_ne_nil _ _ (natDigits_ne_nil S))
      h2a h2b
  have hlen : (padZero 3 (natDigits r)).length = 3 :=
    padZero_length 3 _ (natDigits_length_le 2 r (by omega))
  rw [hlen] at hp2
  simp only [digitsVal_padZero, digitsVal_natDigits] at hp0 hp1 hp2
  simp only [parseTimeInputL, hsplit, List.length_cons, List.length_nil,
    List.getD]
  norm_num
  rw [segOrZero, if_neg hne0, segOrZero, if_neg hne1, segOrZero, if_neg hne2,
    hp0, hp1, hp2]
  show JSNum.val (3600 * (H : ℚ) + 60 * (M : ℚ) +
      ((S : ℚ) + (r : ℚ) / pow10 3)) = _
  norm_num [pow10]

/-- Parsing the two-segment millisecond format `M:SS.mmm`. -/
theorem parseTimeInputL_format2 (M S r : ℕ) (hr : r < 1000) :
    parseTimeInputL (natDigits M ++ ':' ::
        (padZero 2 (natDigits S) ++ '.' :: padZero 3 (natDigits r))) =
      .val (60 * M + (S + (r : ℚ) / 1000)) := by
  have h0 := natDigits_all_dig M
  have h1a := padZero_all_dig 2 (natDigits S) (natDigits_all_dig S)
  have h1b := padZero_all_dig 3 (natDigits r) (natDigits_all_dig r)
  have hsplit : splitOnColon (natDigits M ++ ':' ::
      (padZero 2 (natDigits S) ++ '.' :: padZero 3 (natDigits r))) =
      [natDigits M, padZero 2 (natDigits S) ++ '.' :: padZero 3 (natDigits r)] := by
    rw [splitOnColon_append _ (no_colon_of_dig _ h0),
      splitOnColon_no_colon _ (no_colon_frac _ _ h1a h1b)]
  have hne0 : natDigits M ≠ [] := natDigits_ne_nil M
  have hne1 : padZero 2 (natDigits S) ++ '.' :: padZero 3 (natDigits r) ≠ [] :=
    by simp
  have hp0 : parseFloatL (natDigits M) = .val (digitsVal (natDigits M)) :=
    parseFloatL_digits _ hne0 h0
  have hp1 : parseFloatL
      (padZero 2 (natDigits S) ++ '.' :: padZero 3 (natDigits r)) =
      .val ((digitsVal (padZero 2 (natDigits S)) : ℚ) +
        (digitsVal (padZero 3 (natDigits r)) : ℚ) /
          pow10 (padZero 3 (natDigits r)).length) :=
    parseFloatL_digits_frac _ _ (padZero_ne_nil _ _ (natDigits_ne_nil S))
      h1a h1b
  have hlen : (padZero 3 (natDigits r)).length = 3 :=
    padZero_length 3 _ (natDigits_length_le 2 r (by omega))
  rw [hlen] at hp1
  simp only [digitsVal_padZero, digitsVal_natDigits] at hp0 hp1
  simp only [parseTimeInputL, hsplit, List.length_cons, List.length_nil,
    List.getD]
  norm_num
  rw [segOrZero, if_neg hne0, segOrZero, if_neg hne1, hp0, hp1]
  show JSNum.val (60 * (M : ℚ) + ((S : ℚ) + (r : ℚ) / pow10 3)) = _
  norm_num [pow10]

/-- Parsing the three-segment whole-second format `H:MM:SS`. -/
theorem parseTimeInputL_wholesec3 (H M S : ℕ) :
    parseTimeInputL (natDigits H ++ ':' :: (padZero 2 (natDigits M) ++ ':' ::
        padZero 2 (natDigits S))) =
      .val (3600 * H + 60 * M + (S : ℚ)) := by
  have h0 := natDigits_all_dig H
  have h1 := padZero_all_dig 2 (natDigits M) (natDigits_all_dig M)
  have h2 := padZero_all_dig 2 (natDigits S) (natDigits_all_dig S)
  have hsplit : splitOnColon (natDigits H ++ ':' ::
      (padZero 2 (natDigits M) ++ ':' :: padZero 2 (natDigits S))) =
      [natDigits H, padZero 2 (natDigits M), padZero 2 (natDigits S)] := by
    rw [splitOnColon_append _ (no_colon_of_dig _ h0),
      splitOnColon_append _ (no_colon_of_dig _ h1),
      splitOnColon_no_colon _ (no_colon_of_dig _ h2)]
  have hne0 : natDigits H ≠ [] := natDigits_ne_nil H
  have hne1 : padZero 2 (natDigits M) ≠ [] :=
    padZero_ne_nil _ _ (natDigits_ne_nil M)
  have hne2 : padZero 2 (natDigits S) ≠ [] :=
    padZero_ne_nil _ _ (natDigits_ne_nil S)
  have hp0 := parseFloatL_digits _ hne0 h0
  have hp1 := parseFloatL_digits _ hne1 h1
  have hp2 := parseFloatL_digits _ hne2 h2
  simp only [digitsVal_padZero, digitsVal_natDigits] at hp0 hp1 hp2
  simp only [parseTimeInputL, hsplit, List.length_cons, List.length_nil,
    List.getD]
  norm_num
  rw [segOrZero, if_neg hne0, segOrZero, if_neg hne1, segOrZero, if_neg hne2,
    hp0, hp1, hp2]
  show JSNum.val (3600 * (H : ℚ) + 60 * (M : ℚ) + (S : ℚ)) = _
  norm_num

/-- Parsing the two-segment whole-second format `M:SS`. -/
theorem parseTimeInputL_wholesec2 (M S : ℕ) :
    parseTimeInputL (natDigits M ++ ':' :: padZero 2 (natDigits S)) =
      .val (60 * M + (S : ℚ)) := by
  have h0 := natDigits_all_dig M
  have h1 := padZero_all_dig 2 (natDigits S) (natDigits_all_dig S)
  have hsplit : splitOnColon (natDigits M ++ ':' :: padZero 2 (natDigits S)) =
      [natDigits M, padZero 2 (natDigits S)] := by
    rw [splitOnColon_append _ (no_colon_of_dig _ h0),
      splitOnColon_no_colon _ (no_colon_of_dig _ h1)]
  have hne0 : natDigits M ≠ [] := natDigits_ne_nil M
  have hne1 : padZero 2 (natDigits S) ≠ [] :=
    padZero_ne_nil _ _ (natDigits_ne_nil S)
  have hp0 := parseFloatL_digits _ hne0 h0
  have hp1 := parseFloatL_digits _ hne1 h1
  simp only [digitsVal_padZero, digitsVal_natDigits] at hp0 hp1
  simp only [parseTimeInputL, hsplit, List.length_cons, List.length_nil,
    List.getD]
  norm_num
  rw [segOrZero, if_neg hne0, segOrZero, if_neg hne1, hp0, hp1]
  show JSNum.val (60 * (M : ℚ) + (S : ℚ)) = _
  norm_num

/-- `Math.floor` of a nonnegative rational divided by a natural, as a
natural division of the integer part. -/
theorem floor_div_natCast (t : ℚ) (ht : 0 ≤ t) (n : ℕ) :
    ⌊t / (n : ℚ)⌋ = ((⌊t⌋₊ / n : ℕ) : ℤ) := by
  have hnn : 0 ≤ t / (n : ℚ) := div_nonneg ht (by positivity)
  rw [← Int.natCast_floor_eq_floor hnn, Nat.floor_div_nat]

/-- The JavaScript remainder of a nonnegative rational by a positive
natural: integer remainder plus the fractional part. -/
theorem jsMod_natCast (t : ℚ) (ht : 0 ≤ t) (n : ℕ) :
    jsMod t n = ((⌊t⌋₊ % n : ℕ) : ℚ) + Int.fract t := by
  have htr : jsTrunc (t / n) = ⌊t / (n : ℚ)⌋ :=
    if_pos (div_nonneg ht (by positivity))
  unfold jsMod
  rw [htr, floor_div_natCast t ht n]
  have hm : ((⌊t⌋₊ : ℚ)) = ⌊t⌋ := natCast_floor_eq_intCast_floor ht
  have hsplit : t = (⌊t⌋₊ : ℚ) + Int.fract t := by
    rw [hm]
    exact (Int.floor_add_fract t).symm
  have hdm : n * (⌊t⌋₊ / n) + ⌊t⌋₊ % n = ⌊t⌋₊ := Nat.div_add_mod ⌊t⌋₊ n
  have hdm' : ((n * (⌊t⌋₊ / n) + ⌊t⌋₊ % n : ℕ) : ℚ) = ((⌊t⌋₊ : ℕ) : ℚ) := by
    rw [hdm]
  push_cast at hdm'
  rw [Int.cast_natCast]
  linarith [hsplit, hdm']

/-- The natural floor of `k + f` for a fractional part `f`. -/
theorem natFloor_natCast_add_fract (k : ℕ) (t : ℚ) :
    ⌊(k : ℚ) + Int.fract t⌋₊ = k := by
  rw [add_comm, Nat.floor_add_nat (Int.fract_nonneg t) k,
    Nat.floor_eq_zero.2 (Int.fract_lt_one t), zero_add]

/-- The integer floor of `k + f` for a fractional part `f`. -/
theorem intFloor_natCast_add_fract (k : ℕ) (t : ℚ) :
    ⌊(k : ℚ) + Int.fract t⌋ = k := by
  have : ((k : ℤ) : ℚ) = ((k : ℕ) : ℚ) := by push_cast; rfl
  rw [← this, Int.floor_int_add, Int.floor_fract, add_zero]

/-- The four components computed by `formatTimeInputL`, for `t ≥ 0`, in
terms of `m = ⌊t⌋₊` and the fractional part. -/
theorem format_components (t : ℚ) (ht : 0 ≤ t) :
    ⌊t / 3600⌋ = ((⌊t⌋₊ / 3600 : ℕ) : ℤ) ∧
    ⌊jsMod t 3600 / 60⌋ = ((⌊t⌋₊ % 3600 / 60 : ℕ) : ℤ) ∧
    ⌊jsMod t 60⌋ = ((⌊t⌋₊ % 60 : ℕ) : ℤ) ∧
    ⌊jsMod t 1 * 1000⌋ = ⌊Int.fract t * 1000⌋ := by
  refine ⟨?_, ?_, ?_, ?_⟩
  · have : ((3600 : ℕ) : ℚ) = (3600 : ℚ) := by norm_num
    rw [← this, floor_div_natCast t ht 3600]
  · have h36 : ((3600 : ℕ) : ℚ) = (3600 : ℚ) := by norm_num
    have h60 : ((60 : ℕ) : ℚ) = (60 : ℚ) := by norm_num
    rw [← h36, ← h60, jsMod_natCast t ht 3600,
      floor_div_natCast _
        (add_nonneg (by positivity) (Int.fract_nonneg t)) 60,
      natFloor_natCast_add_fract]
  · have h60 : ((60 : ℕ) : ℚ) = (60 : ℚ) := by norm_num
    rw [← h60, jsMod_natCast t ht 60, intFloor_natCast_add_fract]
  · have h1 : ((1 : ℕ) : ℚ) = (1 : ℚ) := by norm_num
    rw [← h1, jsMod_natCast t ht 1, Nat.mod_one]
    norm_num

/-- C9: for `t` in `[0, 36000)`, parsing back the millisecond-precision
format (`formatTimeInput`) recovers `t` to within 0.001 s, and parsing back
the whole-second format (`formatTime`) recovers `t` to within 1 s. -/
theorem timecodec_roundtrip (t : ℚ) (ht0 : 0 ≤ t) (ht1 : t < 36000) :
    (∃ q : ℚ, parseTimeInput (formatTimeInput t) = .val q ∧
      |q - t| < 1 / 1000) ∧
    (∃ q : ℚ, parseTimeInput (formatTime t) = .val q ∧ |q - t| < 1) := by
  obtain ⟨hH, hM, hS, hR⟩ := format_components t ht0
  set m := ⌊t⌋₊ with hm
  set f := Int.fract t with hf
  have hf0 : 0 ≤ f := Int.fract_nonneg t
  have hf1 : f < 1 := Int.fract_lt_one t
  have ht : t = (m : ℚ) + f := by
    rw [hm, hf, natCast_floor_eq_intCast_floor ht0]
    exact (Int.floor_add_fract t).symm
  have hR0 : (0 : ℤ) ≤ ⌊f * 1000⌋ := Int.floor_nonneg.2 (by positivity)
  set r : ℕ := ⌊f * 1000⌋.toNat with hr
  have hRZ : ((r : ℕ) : ℤ) = ⌊f * 1000⌋ := Int.toNat_of_nonneg hR0
  have hMS : ⌊jsMod t 1 * 1000⌋ = ((r : ℕ) : ℤ) := by rw [hR, hRZ]
  have hRle : (r : ℚ) ≤ f * 1000 := by
    have := Int.floor_le (f * 1000)
    rw [← hRZ] at this
    exact_mod_cast this
  have hRgt : f * 1000 < (r : ℚ) + 1 := by
    have := Int.lt_floor_add_one (f * 1000)
    rw [← hRZ] at this
    exact_mod_cast this
  have hr1000 : r < 1000 := by
    by_contra hcon
    push_neg at hcon
    have : (1000 : ℚ) ≤ (r : ℚ) := by exact_mod_cast hcon
    nlinarith
  have hparse_ms : parseTimeInputL (formatTimeInputL t) =
      .val ((m : ℚ) + (r : ℚ) / 1000) := by
    by_cases hbr : 0 < m / 3600
    · have hfmt : formatTimeInputL t = natDigits (m / 3600) ++ ':' ::
          (padZero 2 (natDigits (m % 3600 / 60)) ++ ':' ::
            (padZero 2 (natDigits (m % 60)) ++ '.' :: padZero 3 (natDigits r))) := by
        simp only [formatTimeInputL]
        rw [hH, hM, hS, hMS, if_pos (Int.natCast_pos.mpr hbr),
          intDigits_natCast, intDigits_natCast, intDigits_natCast,
          intDigits_natCast]
        simp [List.append_assoc]
      rw [hfmt, parseTimeInputL_format3 _ _ _ _ hr1000]
      congr 1
      have hmm : ((3600 * (m / 3600) + 60 * (m % 3600 / 60) + m % 60 : ℕ) : ℚ) =
          (m : ℚ) := by
        congr 1
        omega
      push_cast at hmm
      linarith [hmm]
    · have hlt : m < 3600 := by omega
      have hfmt : formatTimeInputL t = natDigits (m % 3600 / 60) ++ ':' ::
          (padZero 2 (natDigits (m % 60)) ++ '.' :: padZero 3 (natDigits r)) := by
        simp only [formatTimeInputL]
        rw [hH, hM, hS, hMS,
          if_neg (by exact_mod_cast (by omega : ¬(0 : ℤ) < ((m / 3600 : ℕ) : ℤ))),
          intDigits_natCast, intDigits_natCast, intDigits_natCast]
        simp [List.append_assoc]
      rw [hfmt, parseTimeInputL_format2 _ _ _ hr1000]
      congr 1
      have hmm : ((60 * (m % 3600 / 60) + m % 60 : ℕ) : ℚ) = (m : ℚ) := by
        congr 1
        omega
      push_cast at hmm
      linarith [hmm]
  have hparse_s : parseTimeInputL (formatTimeL t) = .val ((m : ℕ) : ℚ) := by
    by_cases hbr : 0 < m / 3600
    · have hfmt : formatTimeL t = natDigits (m / 3600) ++ ':' ::
          (padZero 2 (natDigits (m % 3600 / 60)) ++ ':' ::
            padZero 2 (natDigits (m % 60))) := by
        simp only [formatTimeL]
        rw [hH, hM, hS, if_pos (Int.natCast_pos.mpr hbr),
          intDigits_natCast, intDigits_natCast, intDigits_natCast]
        simp [List.append_assoc]
      rw [hfmt, parseTimeInputL_wholesec3]
      congr 1
      have hmm : ((3600 * (m / 3600) + 60 * (m % 3600 / 60) + m % 60 : ℕ) : ℚ) =
          (m : ℚ) := by
        congr 1
        omega
      push_cast at hmm
      linarith [hmm]
    · have hlt : m < 3600 := by omega
      have hfmt : formatTimeL t = natDigits (m % 3600 / 60) ++ ':' ::
          padZero 2 (natDigits (m % 60)) := by
        simp only [formatTimeL]
        rw [hH, hM, hS,
          if_neg (by exact_mod_cast (by omega : ¬(0 : ℤ) < ((m / 3600 : ℕ) : ℤ))),
          intDigits_natCast, intDigits_natCast]
      rw [hfmt, parseTimeInputL_wholesec2]
      congr 1
      have hmm : ((60 * (m % 3600 / 60) + m % 60 : ℕ) : ℚ) = (m : ℚ) := by
        congr 1
        omega
      push_cast at hmm
      linarith [hmm]
  refine ⟨⟨(m : ℚ) + (r : ℚ) / 1000, hparse_ms, ?_⟩,
    ⟨(m : ℚ), hparse_s, ?_⟩⟩
  · rw [ht, abs_lt]
    constructor <;> linarith
  · rw [ht, abs_lt]
    constructor <;> linarith

/-- Witness for `timecodec_roundtrip` at `t = 67.25` (format
`"1:07.250"`, whole-second format `"1:07"`). -/
theorem timecodec_roundtrip_witness :
    (0 : ℚ) ≤ 67.25 ∧ (67.25 : ℚ) < 36000 ∧
    ((∃ q : ℚ, parseTimeInput (formatTimeInput 67.25) = .val q ∧
      |q - 67.25| < 1 / 1000) ∧
    (∃ q : ℚ, parseTimeInput (formatTime 67.25) = .val q ∧
      |q - 67.25| < 1)) :=
  ⟨by norm_num, by norm_num,
    timecodec_roundtrip (67.25 : ℚ) (by norm_num) (by norm_num)⟩

end ClipFrontend
